import Mathlib

/-!
Shallow embedding of `src/matrix_class.py` (class `DS_matrix`).

Modelling conventions:

* The `scipy` sparse matrix is a total function `Nat → Nat → ℚ`; a cell the
  real matrix does not store is `0`.  Probabilities are exact rationals
  (the implementation uses floats; the claims are about exact values).
* `vocab_order` is a Python dict mapping each word to its row number.  In
  every model the code builds, the row numbers are `0, 1, 2, …` in dict
  insertion order, so the dict is embedded as the ordered list `vocab` of its
  keys; the row of a word is its position in that list.  `get_words()`
  returns the keys in that same order.
* `unigram_probs` is embedded as a total function `String → ℚ`; no claim
  exercises the `KeyError` path of a missing unigram entry.
* Python exceptions are `Except String`; the error strings paraphrase the
  Python messages (without punctuation that the development avoids).
* `np.random.choice` and the stochastic sampler are driven by an explicit
  list of drawn indices and a fuel bound; a draw the distribution could never
  produce (index out of range or of zero probability), an exhausted draw
  list, or exhausted fuel yield `none` ("not a realizable run"), while `some`
  wraps the outcome of a realizable run (normal result or raised exception).
-/

attribute [local semireducible] Rat.add Rat.mul Rat.sub Rat.inv

structure DS_matrix where
  vocab : List String
  mat : Nat → Nat → ℚ
  ncols : Nat
  unigram : String → ℚ

/-- Position of a word in the vocabulary list: embeds `self.vocab_order[word]`
(dict lookup; `none` models a missing key). -/
def lookup_pos : List String → String → Option Nat
  | [], _ => none
  | w :: ws, x => if w = x then some 0 else (lookup_pos ws x).map (· + 1)

/-- `contains(self, word)`: `word in self.vocab_order`. -/
def DS_matrix.contains (m : DS_matrix) (word : String) : Bool :=
  (lookup_pos m.vocab word).isSome

/-- Row number of a word (meaningful only when the word is contained). -/
def DS_matrix.rowOf (m : DS_matrix) (word : String) : Nat :=
  (lookup_pos m.vocab word).getD 0

/-- `get_words(self)`: the vocabulary in dict order. -/
def DS_matrix.get_words (m : DS_matrix) : List String :=
  m.vocab

/-- `get_bigram_prob(self, word, prev_word)`: raises on an unknown `word`
first, then on an unknown `prev_word`, else returns the cell
`matrix[pos, prev_pos]` unchanged. -/
def DS_matrix.get_bigram_prob (m : DS_matrix) (word prev_word : String) :
    Except String ℚ :=
  match lookup_pos m.vocab word with
  | none => .error "Word not in matrix"
  | some pos =>
    match lookup_pos m.vocab prev_word with
    | none => .error "Previous word not in matrix"
    | some prev_pos => .ok (m.mat pos prev_pos)

/-- The pure value of a bigram cell for contained words. -/
def DS_matrix.bigram_val (m : DS_matrix) (word prev_word : String) : ℚ :=
  m.mat (m.rowOf word) (m.rowOf prev_word)

/-- The loop of `get_sentence_prob`: running product `prob`, current
`prev_word`; unknown words are skipped (`continue`); at the end the
probability of `END$_` given the last known word is multiplied in. -/
def sent_prob_loop (m : DS_matrix) : List String → ℚ → String → Except String ℚ
  | [], prob, prev_word =>
    match m.get_bigram_prob "END$_" prev_word with
    | .error e => .error e
    | .ok p => .ok (prob * p)
  | word :: rest, prob, prev_word =>
    if m.contains word then
      match m.get_bigram_prob word prev_word with
      | .error e => .error e
      | .ok p => sent_prob_loop m rest (prob * p) word
    else
      sent_prob_loop m rest prob prev_word

/-- `get_sentence_prob(self, sentence)`. -/
def DS_matrix.get_sentence_prob (m : DS_matrix) (sentence : List String) :
    Except String ℚ :=
  sent_prob_loop m sentence 1 "START$_"

/-- Reference definition following the spec: the product of bigram
probabilities over a sentence prefixed by the start sentinel (the `prev`
argument) and suffixed by the end sentinel. -/
def chain_prob (m : DS_matrix) : List String → String → ℚ
  | [], prev => m.bigram_val "END$_" prev
  | word :: rest, prev => m.bigram_val word prev * chain_prob m rest word

/-- Row `pos` of the matrix as a dense vector of length `ncols`
(`self.matrix[pos].toarray()`). -/
def row_vector (m : DS_matrix) (pos : Nat) : List ℚ :=
  (List.range m.ncols).map (fun j => m.mat pos j)

/-- `get_vector(self, word)`. -/
def DS_matrix.get_vector (m : DS_matrix) (word : String) :
    Except String (List ℚ) :=
  match lookup_pos m.vocab word with
  | none => .error "Word not in matrix"
  | some pos => .ok (row_vector m pos)

/-- `str.lower()`: character-wise ASCII lower-casing.  This is
`String.toLower` written over the character list so that it reduces inside
the kernel. -/
def py_lower (s : String) : String :=
  ⟨s.data.map Char.toLower⟩

/-- Elementwise `np.sum(vectors, axis=0)` of a nonempty list of
equal-length vectors. -/
def sum_vectors : List (List ℚ) → List ℚ
  | [] => []
  | v :: vs => vs.foldl (fun a b => List.zipWith (· + ·) a b) v

/-- `encode_sentence(self, sent)`: the tokenizer (`nltk.word_tokenize`) is an
external collaborator, passed as a parameter.  Each token is lower-cased and
looked up; vectors of known tokens are collected in order; if none is known
the result is `np.zeros((1, shape[1]))`, modelled as the zero vector of
length `ncols`. -/
def DS_matrix.encode_sentence (m : DS_matrix) (tokenize : String → List String)
    (sent : String) : List ℚ :=
  let words := tokenize sent
  let vectors := words.foldl
    (fun acc w =>
      match lookup_pos m.vocab (py_lower w) with
      | some pos => acc ++ [row_vector m pos]
      | none => acc) []
  if vectors = [] then List.replicate m.ncols 0 else sum_vectors vectors

/-! ## `less_words_matrix` -/

/-- Accumulator pass of `pydistinct`: keeps the first occurrence of each
element.  Models building a Python `set` from a list; the real set iteration
order is unspecified, first-occurrence order is one admissible instance and
no claim observes the order. -/
def pydistinct_aux : List String → List String → List String
  | _, [] => []
  | seen, x :: xs =>
    if x ∈ seen then pydistinct_aux seen xs
    else x :: pydistinct_aux (x :: seen) xs

def pydistinct (l : List String) : List String :=
  pydistinct_aux [] l

/-- `s.add(x)` on a set held as a duplicate-free list. -/
def py_set_add (l : List String) (x : String) : List String :=
  if x ∈ l then l else l ++ [x]

/-- The word list of the reduced matrix (`less_words_matrix` lines building
`contained_words` and adding the sentinels when the original model has
them). -/
def reduced_vocab (m : DS_matrix) (word_set : List String) : List String :=
  let contained := pydistinct (word_set.filter (fun w => m.contains w))
  let s1 := if m.contains "START$_" then py_set_add contained "START$_"
            else contained
  if m.contains "END$_" then py_set_add s1 "END$_" else s1

/-- Sum of column `j` over the rows `0 … nrows - 1`
(`matrix.getcol(col).sum()`). -/
def col_sum (mat : Nat → Nat → ℚ) (nrows j : Nat) : ℚ :=
  ((List.range nrows).map (fun i => mat i j)).sum

/-- Column `j` has no nonzero entry among the first `nrows` rows, i.e. `j`
does not occur in `matrix.nonzero()`. -/
def col_is_zero (mat : Nat → Nat → ℚ) (nrows j : Nat) : Bool :=
  (List.range nrows).all (fun i => mat i j == 0)

/-- The normalization loop of `less_words_matrix` in exact arithmetic.  The
Python loop walks the `columns` coordinate list of `nonzero()` (one item per
nonzero entry) and divides every entry of that column by the column sum
recomputed at that moment: on the first visit of a column the entries become
`e / S`, after which the column sums to `1` (or stays all `0` when `S = 0`,
since in `ℚ` division by zero is `0`), so every later visit divides by `1`
(resp. `0`) and changes nothing.  Columns outside `nonzero()` are never
touched.  The net effect, embedded here, is: each column with a nonzero
entry is divided once by its original sum. -/
def normalize_cols (mat : Nat → Nat → ℚ) (nrows : Nat) : Nat → Nat → ℚ :=
  fun i j =>
    if col_is_zero mat nrows j then mat i j
    else mat i j / col_sum mat nrows j

/-- Row `i` of the reduced matrix before normalization: the original row of
the `i`-th retained word, with the original number of columns
(`new_matrix.matrix[i] = self.matrix.getrow(pos)`); rows past the new shape
do not exist (cell `0`). -/
def base_mat (m : DS_matrix) (ws : List String) : Nat → Nat → ℚ :=
  fun i j =>
    match ws.get? i with
    | some w => m.mat (m.rowOf w) j
    | none => 0

/-- `less_words_matrix(self, word_set, normalize)`. -/
def DS_matrix.less_words_matrix (m : DS_matrix) (word_set : List String)
    (normalize : Bool) : DS_matrix :=
  let ws := reduced_vocab m word_set
  { vocab := ws
    ncols := m.ncols
    unigram := m.unigram
    mat := if normalize then normalize_cols (base_mat m ws) ws.length
           else base_mat m ws }

/-! ## `generate_bigram_sentence` -/

/-- `np.random.choice(range(len(probs)), p=probs)` given the drawn index:
numpy first rejects negative weights and weight vectors that do not sum to 1
(`ValueError`); a draw is realizable iff its index is in range and has
positive probability. -/
def np_choice (probs : List ℚ) (draw : Nat) : Option (Except String Nat) :=
  if probs.any (fun p => p < 0) then
    some (.error "ValueError probabilities are not non-negative")
  else if probs.sum ≠ 1 then
    some (.error "ValueError probabilities do not sum to 1")
  else if draw < probs.length ∧ 0 < probs.getD draw 0 then
    some (.ok draw)
  else none

/-- The unigram-backoff sampling of `generate_bigram_sentence`: one draw,
then the `while word == "START$_"` re-roll loop, consuming draws until the
sampled word is not the start sentinel.  Returns the sampled word and the
unconsumed draws. -/
def redraw_non_start (words : List String) (probs : List ℚ) :
    List Nat → Option (Except String (String × List Nat))
  | [] => none
  | d :: ds =>
    match np_choice probs d with
    | none => none
    | some (.error e) => some (.error e)
    | some (.ok i) =>
      let w := words.getD i ""
      if w = "START$_" then redraw_non_start words probs ds
      else some (.ok (w, ds))

/-- `self.matrix.getcol(pos).toarray().flatten()`: the full column `pos`,
one entry per vocabulary row. -/
def bigram_col (m : DS_matrix) (pos : Nat) : List ℚ :=
  (List.range m.vocab.length).map (fun i => m.mat i pos)

/-- One iteration of the generation loop body: look up the column of the
current word; if it sums to zero, back off to the unigram distribution with
the start-sentinel re-roll; otherwise sample from the column directly (no
re-roll in this branch). -/
def gen_next (m : DS_matrix) (word : String) (draws : List Nat) :
    Option (Except String (String × List Nat)) :=
  match lookup_pos m.vocab word with
  | none => some (.error "KeyError")
  | some pos =>
    if (bigram_col m pos).sum = 0 then
      redraw_non_start m.vocab (m.vocab.map (fun w => m.unigram w)) draws
    else
      match draws with
      | [] => none
      | d :: ds =>
        match np_choice (bigram_col m pos) d with
        | none => none
        | some (.error e) => some (.error e)
        | some (.ok i) => some (.ok (m.vocab.getD i "", ds))

/-- The `while word != "END$_"` loop: sample a next word; `break` without
appending when it is the end sentinel, else append and continue. -/
def gen_loop (m : DS_matrix) :
    Nat → String → List Nat → List String → Option (Except String (List String))
  | 0, _, _, _ => none
  | fuel + 1, word, draws, acc =>
    if word = "END$_" then some (.ok acc)
    else
      match gen_next m word draws with
      | none => none
      | some (.error e) => some (.error e)
      | some (.ok (w, ds)) =>
        if w = "END$_" then some (.ok acc)
        else gen_loop m fuel w ds (acc ++ [w])

/-- `generate_bigram_sentence(self, start_word)`: the start word is
lower-cased unless it is a sentinel, rejected if unknown, and the loop runs
from it with an empty sentence accumulator. -/
def DS_matrix.generate_bigram_sentence (m : DS_matrix) (start_word : String)
    (draws : List Nat) (fuel : Nat) : Option (Except String (List String)) :=
  let start_word :=
    if start_word ≠ "START$_" ∧ start_word ≠ "END$_" then py_lower start_word
    else start_word
  if m.contains start_word then gen_loop m fuel start_word draws []
  else some (.error "given start_word not in matrix")

/-! ## `reconstruct_sent` -/

/-- A queue entry of the beam search: a partial word list and its joint
probability.  The probability is `Option ℚ` because the seed probability is
the value of `start_word_prob`, a Python function without a `return`
statement, i.e. `None`. -/
abbrev Entry := List String × Option ℚ

/-- Python `x > y` on possibly-`None` floats (`TypeError` when a `None` is
compared). -/
def pyGtOpt : Option ℚ → Option ℚ → Except String Bool
  | some a, some b => .ok (decide (b < a))
  | _, _ => .error "TypeError comparison not supported between NoneType operands"

/-- Python `x < y` on possibly-`None` floats. -/
def pyLtOpt : Option ℚ → Option ℚ → Except String Bool
  | some a, some b => .ok (decide (a < b))
  | _, _ => .error "TypeError comparison not supported between NoneType operands"

/-- Python `x * y` where `x` may be `None` (`TypeError` in that case). -/
def pymulOpt : Option ℚ → ℚ → Except String ℚ
  | some a, b => .ok (a * b)
  | none, _ => .error "TypeError unsupported operand types for mul NoneType and float"

/-- The fold of CPython `max(iterable, key=...)`: the key of every item is
computed in iteration order and compared with `>` against the best key so
far (an exception from the key call or from the comparison propagates). -/
def pymax_go (key : String → Except String (Option ℚ)) :
    String → Option ℚ → List String → Except String String
  | best, _, [] => .ok best
  | best, bestv, y :: ys =>
    match key y with
    | .error e => .error e
    | .ok v =>
      match pyGtOpt v bestv with
      | .error e => .error e
      | .ok b => if b then pymax_go key y v ys else pymax_go key best bestv ys

/-- `max(l, key=key)`. -/
def pymax_key (l : List String) (key : String → Except String (Option ℚ)) :
    Except String String :=
  match l with
  | [] => .error "ValueError max arg is an empty sequence"
  | x :: xs =>
    match key x with
    | .error e => .error e
    | .ok v => pymax_go key x v xs

/-- The local function `start_word_prob` of `reconstruct_sent`: its body
evaluates `self.get_bigram_prob(w, "START$_")` (so an unknown-word exception
still propagates) but has no `return` statement, so the call returns
`None`. -/
def start_word_prob (m : DS_matrix) (w : String) : Except String (Option ℚ) :=
  match m.get_bigram_prob w "START$_" with
  | .error e => .error e
  | .ok _ => .ok none

/-- The seeding block of `reconstruct_sent`:
`first_word = max(words, key=start_word_prob)`,
`prob = start_word_prob(first_word)`, `queue = [([first_word], prob)]`. -/
def init_queue (m : DS_matrix) (words : List String) :
    Except String (List Entry) :=
  match pymax_key words (start_word_prob m) with
  | .error e => .error e
  | .ok first_word =>
    match start_word_prob m first_word with
    | .error e => .error e
    | .ok prob => .ok [([first_word], prob)]

/-- The fold of CPython `min(iterable, key=lambda t: t[1])`: keeps the first
entry whose key is minimal, comparing with `<`. -/
def pymin_go : Entry → List Entry → Except String Entry
  | best, [] => .ok best
  | best, y :: ys =>
    match pyLtOpt y.2 best.2 with
    | .error e => .error e
    | .ok b => pymin_go (if b then y else best) ys

/-- `min(l, key=lambda t: t[1])` over queue entries. -/
def pymin_by_snd : List Entry → Except String Entry
  | [] => .error "ValueError min arg is an empty sequence"
  | x :: xs => pymin_go x xs

/-- The pruning block of `reconstruct_sent` (run after each append): when the
queue exceeds 10000 entries, `remove_el = min(queue[:1000], key=lambda t:
t[1])` and `queue.remove(remove_el)` (removal of the first entry equal to
the minimum of the first 1000 entries). -/
def prune_queue (queue : List Entry) : Except String (List Entry) :=
  if queue.length > 10000 then
    match pymin_by_snd (queue.take 1000) with
    | .error e => .error e
    | .ok remove_el => .ok (queue.erase remove_el)
  else .ok queue

/-- The expansion loop `for w in set(words_left): ... expansions.append((w,
self.get_bigram_prob(w, last_word)))`, in iteration order. -/
def expand (m : DS_matrix) (last_word : String) :
    List String → Except String (List (String × ℚ))
  | [] => .ok []
  | w :: ws =>
    match m.get_bigram_prob w last_word with
    | .error e => .error e
    | .ok p =>
      match expand m last_word ws with
      | .error e => .error e
      | .ok rest => .ok ((w, p) :: rest)

/-- Stable insertion for descending sort by probability
(`expansions.sort(key=lambda t: t[1], reverse=True)`). -/
def insert_desc (x : String × ℚ) : List (String × ℚ) → List (String × ℚ)
  | [] => [x]
  | y :: ys => if y.2 < x.2 then x :: y :: ys else y :: insert_desc x ys

def sort_desc (l : List (String × ℚ)) : List (String × ℚ) :=
  l.foldr insert_desc []

/-- The push loop `for w, p in best_expansions: ... queue.append(...)`
followed, inside the loop, by the pruning block. -/
def push_all (word_list : List String) (prob_thus_far : Option ℚ) :
    List (String × ℚ) → List Entry → Except String (List Entry)
  | [], queue => .ok queue
  | (w, p) :: rest, queue =>
    match pymulOpt prob_thus_far p with
    | .error e => .error e
    | .ok new_prob =>
      match prune_queue (queue ++ [(word_list ++ [w], some new_prob)]) with
      | .error e => .error e
      | .ok queue2 => push_all word_list prob_thus_far rest queue2

/-- The fold of `max(solutions, key=lambda t: t[1])` (pure probabilities,
first maximum kept). -/
def pymax_sol_go : List String × ℚ → List (List String × ℚ) → List String × ℚ
  | best, [] => best
  | best, y :: ys => pymax_sol_go (if best.2 < y.2 then y else best) ys

def pymax_solutions : List (List String × ℚ) → Except String (List String × ℚ)
  | [] => .error "ValueError max arg is an empty sequence"
  | x :: xs => .ok (pymax_sol_go x xs)

/-- `' '.join(best_sent)`. -/
def join_words (l : List String) : String :=
  String.intercalate " " l

/-- The `while queue != []` loop of `reconstruct_sent`, with a fuel bound
(the modelled error on fuel 0 stands for a run longer than the bound; every
claim below is settled on runs that finish within the bound).  Faithful
points: `words_left` removes one occurrence of each used word; `last_word =
word_list[-1]` raises on an empty list; the branch test is
`len(word_list) < len(words) - 1`; the completion branch reads
`words_left[0]` (raising `IndexError` when nothing is left), multiplies the
possibly-`None` running probability, and appends to `solutions`; when the
queue drains, `max(solutions, ...)` raises on an empty solution list. -/
def beam_loop (m : DS_matrix) (words : List String) (beam_width : Nat) :
    Nat → List Entry → List (List String × ℚ) → Except String String
  | 0, _, _ => .error "model fuel exhausted"
  | _ + 1, [], solutions =>
    match pymax_solutions solutions with
    | .error e => .error e
    | .ok best => .ok (join_words best.1)
  | fuel + 1, (word_list, prob_thus_far) :: rest, solutions =>
    let words_left := word_list.foldl (fun acc u => acc.erase u) words
    match word_list.getLast? with
    | none => .error "IndexError list index out of range"
    | some last_word =>
      if word_list.length < words.length - 1 then
        match expand m last_word (pydistinct words_left) with
        | .error e => .error e
        | .ok expansions =>
          let best_expansions :=
            if expansions.length < beam_width then expansions
            else (sort_desc expansions).take beam_width
          match push_all word_list prob_thus_far best_expansions rest with
          | .error e => .error e
          | .ok queue2 => beam_loop m words beam_width fuel queue2 solutions
      else
        match words_left with
        | [] => .error "IndexError list index out of range"
        | w :: _ =>
          match m.get_bigram_prob w last_word with
          | .error e => .error e
          | .ok p1 =>
            match pymulOpt prob_thus_far p1 with
            | .error e => .error e
            | .ok t =>
              match m.get_bigram_prob "END$_" w with
              | .error e => .error e
              | .ok p2 =>
                beam_loop m words beam_width fuel rest
                  (solutions ++ [(word_list ++ [w], t * p2)])

/-- `reconstruct_sent(self, sent, beam_width)`.  Encoding the input sentence
and the call to the external bag-of-words solver (`s2b.greedy_search`) are
outside the source; `words` is the word list the solver returned, exactly as
the function body consumes it from line `if words == []:` on. -/
def DS_matrix.reconstruct_sent (m : DS_matrix) (words : List String)
    (beam_width fuel : Nat) : Except String String :=
  if words = [] then .ok ""
  else
    match init_queue m words with
    | .error e => .error e
    | .ok queue => beam_loop m words beam_width fuel queue []

/-! ## Concrete models used by witnesses and counterexamples -/

/-- A four-word model: sentinels plus `a`, `b`, with
`P(a|START) = 1/2 > P(b|START) = 1/4` and `P(b|a) = 1/2 > P(a|b) = 1/4`. -/
def Mw : DS_matrix where
  vocab := ["START$_", "END$_", "a", "b"]
  mat := fun i j =>
    if i = 2 ∧ j = 0 then 1/2
    else if i = 3 ∧ j = 0 then 1/4
    else if i = 3 ∧ j = 2 then 1/2
    else if i = 2 ∧ j = 3 then 1/4
    else 0
  ncols := 4
  unigram := fun _ => 0

/-- A model whose bigram column for `w` gives the start sentinel positive
probability: `P(START|w) = P(END|w) = 1/2`, `P(END|START) = 1`. -/
def Mgen : DS_matrix where
  vocab := ["START$_", "END$_", "w"]
  mat := fun i j =>
    if i = 0 ∧ j = 2 then 1/2
    else if i = 1 ∧ j = 2 then 1/2
    else if i = 1 ∧ j = 0 then 1
    else 0
  ncols := 3
  unigram := fun _ => 0

/-- A model whose start-sentinel row is all zero: every column puts all its
mass on `END$_`. -/
def Mok : DS_matrix where
  vocab := ["START$_", "END$_", "w"]
  mat := fun i _ => if i = 1 then 1 else 0
  ncols := 3
  unigram := fun _ => 0

/-! ## Helper lemmas -/

theorem lookup_pos_some_get? :
    ∀ (l : List String) (x : String) (n : Nat),
      lookup_pos l x = some n → l.get? n = some x := by
  intro l
  induction l with
  | nil => intro x n h; simp [lookup_pos] at h
  | cons w ws ih =>
    intro x n h
    simp only [lookup_pos] at h
    by_cases hw : w = x
    · rw [if_pos hw] at h
      injection h with h
      subst h
      simpa using hw
    · rw [if_neg hw] at h
      cases hl : lookup_pos ws x with
      | none => rw [hl] at h; simp at h
      | some k =>
        rw [hl] at h
        simp at h
        subst h
        simpa using ih x k hl

theorem lookup_pos_isSome_of_mem :
    ∀ {l : List String} {x : String}, x ∈ l → (lookup_pos l x).isSome = true := by
  intro l
  induction l with
  | nil => intro x h; simp at h
  | cons w ws ih =>
    intro x h
    by_cases hw : w = x
    · simp [lookup_pos, hw]
    · have hx : x ∈ ws := by
        rcases List.mem_cons.1 h with h1 | h1
        · exact absurd h1.symm hw
        · exact h1
      simp [lookup_pos, hw, Option.isSome_map]
      exact ih hx

theorem contains_exists_pos {m : DS_matrix} {w : String}
    (h : m.contains w = true) : ∃ n, lookup_pos m.vocab w = some n := by
  simpa [DS_matrix.contains, Option.isSome_iff_exists] using h

theorem get_bigram_prob_of_contains (m : DS_matrix) {w p : String}
    (hw : m.contains w = true) (hp : m.contains p = true) :
    m.get_bigram_prob w p = .ok (m.bigram_val w p) := by
  obtain ⟨n, hn⟩ := contains_exists_pos hw
  obtain ⟨k, hk⟩ := contains_exists_pos hp
  simp [DS_matrix.get_bigram_prob, DS_matrix.bigram_val, DS_matrix.rowOf, hn, hk]

theorem sent_prob_loop_filter (m : DS_matrix) :
    ∀ (l : List String) (acc : ℚ) (prev : String),
      sent_prob_loop m l acc prev
        = sent_prob_loop m (l.filter (fun w => m.contains w)) acc prev := by
  intro l
  induction l with
  | nil => intro acc prev; rfl
  | cons w rest ih =>
    intro acc prev
    by_cases hw : m.contains w = true
    · simp only [List.filter_cons, hw, if_pos]
      simp only [sent_prob_loop, hw, if_pos]
      cases hg : m.get_bigram_prob w prev with
      | error e => rfl
      | ok p => exact ih (acc * p) w
    · have hw' : m.contains w = false := by
        simpa using hw
      simp only [List.filter_cons, hw', Bool.false_eq_true, if_neg,
        not_false_iff]
      simp only [sent_prob_loop, hw', Bool.false_eq_true, if_neg,
        not_false_iff]
      exact ih acc prev

theorem sent_prob_loop_chain (m : DS_matrix)
    (hE : m.contains "END$_" = true) :
    ∀ (l : List String), (∀ w ∈ l, m.contains w = true) →
      ∀ (acc : ℚ) (prev : String), m.contains prev = true →
        sent_prob_loop m l acc prev = .ok (acc * chain_prob m l prev) := by
  intro l
  induction l with
  | nil =>
    intro _ acc prev hprev
    simp [sent_prob_loop, chain_prob, get_bigram_prob_of_contains m hE hprev]
  | cons w rest ih =>
    intro hl acc prev hprev
    have hw : m.contains w = true := hl w (List.mem_cons_self w rest)
    simp only [sent_prob_loop, hw, if_pos,
      get_bigram_prob_of_contains m hw hprev, chain_prob]
    rw [ih (fun x hx => hl x (List.mem_cons_of_mem w hx)) (acc * m.bigram_val w prev) w hw]
    rw [mul_assoc]

/-- Claim C7: `get_sentence_prob` on a sentence equals `get_sentence_prob`
on the sentence with every out-of-vocabulary word removed (unknown words
contribute no factor and never become the conditioning previous word), and
when the sentinels are in the vocabulary the result is the product of
bigram probabilities over the filtered sentence prefixed by the start
sentinel and suffixed by the end sentinel. -/
theorem C7_sentence_prob_skips_unknown (m : DS_matrix) (s : List String) :
    m.get_sentence_prob s
      = m.get_sentence_prob (s.filter (fun w => m.contains w))
    ∧ (m.contains "START$_" = true → m.contains "END$_" = true →
        m.get_sentence_prob s
          = .ok (chain_prob m (s.filter (fun w => m.contains w)) "START$_")) := by
  constructor
  · exact sent_prob_loop_filter m s 1 "START$_"
  · intro hS hE
    have hall : ∀ w ∈ s.filter (fun w => m.contains w), m.contains w = true := by
      intro w hw
      exact (List.mem_filter.1 hw).2
    rw [DS_matrix.get_sentence_prob, sent_prob_loop_filter m s 1 "START$_"]
    rw [sent_prob_loop_chain m hE _ hall 1 "START$_" hS, one_mul]

theorem C7_witness :
    Mw.contains "START$_" = true ∧ Mw.contains "END$_" = true ∧
    Mw.get_sentence_prob ["x", "a"]
      = .ok (chain_prob Mw ((["x", "a"]).filter (fun w => Mw.contains w)) "START$_") :=
  ⟨by decide, by decide,
    (C7_sentence_prob_skips_unknown Mw ["x", "a"]).2 (by decide) (by decide)⟩

/-- Claim C8: an empty candidate multiset from the solver makes
`reconstruct_sent` return the empty string with no search and no
exception. -/
theorem C8_empty_candidates_empty_string (m : DS_matrix)
    (beam_width fuel : Nat) :
    m.reconstruct_sent [] beam_width fuel = .ok "" :=
  rfl

/-- Claim C6: `get_bigram_prob` succeeds exactly when both words are in the
vocabulary, in which case it returns the matrix cell at (row of word,
column of prev word) unchanged, and fails with an error exactly when one of
them is absent. -/
theorem C6_get_bigram_prob_unknown_word (m : DS_matrix)
    (word prev_word : String) :
    (m.get_bigram_prob word prev_word
        = .ok (m.mat (m.rowOf word) (m.rowOf prev_word))
      ↔ m.contains word = true ∧ m.contains prev_word = true)
    ∧ ((∃ e, m.get_bigram_prob word prev_word = .error e)
      ↔ ¬(m.contains word = true ∧ m.contains prev_word = true)) := by
  unfold DS_matrix.get_bigram_prob DS_matrix.contains DS_matrix.rowOf
  cases h1 : lookup_pos m.vocab word <;>
    cases h2 : lookup_pos m.vocab prev_word <;>
      simp [h1, h2]

theorem C6_witness :
    Mw.contains "b" = true ∧ Mw.contains "a" = true ∧
    Mw.get_bigram_prob "b" "a" = .ok (Mw.mat (Mw.rowOf "b") (Mw.rowOf "a")) :=
  ⟨by decide, by decide,
    (C6_get_bigram_prob_unknown_word Mw "b" "a").1.mpr ⟨by decide, by decide⟩⟩

theorem encode_fold_nil (m : DS_matrix) :
    ∀ (l : List String) (acc : List (List ℚ)),
      (∀ w ∈ l, m.contains (py_lower w) = false) →
      l.foldl
        (fun acc w =>
          match lookup_pos m.vocab (py_lower w) with
          | some pos => acc ++ [row_vector m pos]
          | none => acc) acc = acc := by
  intro l
  induction l with
  | nil => intro acc _; rfl
  | cons w rest ih =>
    intro acc h
    have hw : m.contains (py_lower w) = false := h w (List.mem_cons_self w rest)
    have hl : lookup_pos m.vocab (py_lower w) = none := by
      cases h2 : lookup_pos m.vocab (py_lower w) with
      | none => rfl
      | some v => rw [DS_matrix.contains, h2] at hw; simp at hw
    simp only [List.foldl_cons, hl]
    exact ih acc (fun x hx => h x (List.mem_cons_of_mem w hx))

/-- Claim C9: when no token of the input (after lower-casing) is in the
vocabulary — in particular for an empty token list — `encode_sentence`
returns the all-zero vector whose dimension is the number of matrix
columns. -/
theorem C9_encode_unknown_tokens_zero_vector (m : DS_matrix)
    (tokenize : String → List String) (sent : String)
    (h : ∀ w ∈ tokenize sent, m.contains (py_lower w) = false) :
    m.encode_sentence tokenize sent = List.replicate m.ncols 0 := by
  unfold DS_matrix.encode_sentence
  dsimp only
  rw [encode_fold_nil m (tokenize sent) [] h]
  rfl

theorem C9_witness :
    (∀ w ∈ (fun (_ : String) => ["qq"]) "t", Mw.contains (py_lower w) = false)
    ∧ Mw.encode_sentence (fun _ => ["qq"]) "t" = List.replicate Mw.ncols 0 :=
  ⟨by decide,
    C9_encode_unknown_tokens_zero_vector Mw (fun _ => ["qq"]) "t" (by decide)⟩

theorem start_word_prob_ok {m : DS_matrix} {w : String}
    (hw : m.contains w = true) (hS : m.contains "START$_" = true) :
    start_word_prob m w = .ok none := by
  obtain ⟨n, hn⟩ := contains_exists_pos hw
  obtain ⟨s, hs⟩ := contains_exists_pos hS
  simp [start_word_prob, DS_matrix.get_bigram_prob, hn, hs]

/-- Claim C1 (settled as a code bug): under exactly the scenario of the
claim — candidates `[a, b]` with `P(a|START) > P(b|START)` and
`P(b|a) > P(a|b)`, any `beam_width ≥ 1` — `reconstruct_sent` does not
return `"a b"`: the key function `start_word_prob` has no `return`
statement, so `max(words, key=start_word_prob)` compares `None` with `None`
and raises `TypeError` before the beam search starts. -/
theorem C1_reconstruct_two_candidates_raises (m : DS_matrix) (a b : String)
    (beam_width fuel : Nat) (hbw : 1 ≤ beam_width)
    (ha : m.contains a = true) (hb : m.contains b = true)
    (hS : m.contains "START$_" = true)
    (h1 : m.bigram_val b "START$_" < m.bigram_val a "START$_")
    (h2 : m.bigram_val a b < m.bigram_val b a) :
    m.reconstruct_sent [a, b] beam_width fuel
      = .error "TypeError comparison not supported between NoneType operands" := by
  have hq : init_queue m [a, b]
      = .error "TypeError comparison not supported between NoneType operands" := by
    simp [init_queue, pymax_key, pymax_go, start_word_prob_ok ha hS,
      start_word_prob_ok hb hS, pyGtOpt]
  simp [DS_matrix.reconstruct_sent, hq]

theorem C1_witness :
    (1 ≤ 1) ∧ Mw.contains "a" = true ∧ Mw.contains "b" = true
    ∧ Mw.contains "START$_" = true
    ∧ Mw.bigram_val "b" "START$_" < Mw.bigram_val "a" "START$_"
    ∧ Mw.bigram_val "a" "b" < Mw.bigram_val "b" "a"
    ∧ Mw.reconstruct_sent ["a", "b"] 1 5
      = .error "TypeError comparison not supported between NoneType operands" :=
  ⟨le_refl 1, by decide, by decide, by decide, by decide, by decide,
    C1_reconstruct_two_candidates_raises Mw "a" "b" 1 5 (le_refl 1)
      (by decide) (by decide) (by decide) (by decide) (by decide)⟩

/-- Claim C2 (settled as a code bug): the seeding of the work queue does not
pair the first word with its start-bigram probability.  With a single
candidate the queue is seeded with `([a], None)` — `start_word_prob`
returns `None` because it lacks a `return` statement — and with two or more
candidates the seeding itself raises `TypeError` inside
`max(words, key=start_word_prob)`. -/
theorem C2_seed_queue_not_start_prob (m : DS_matrix) (a b : String)
    (ha : m.contains a = true) (hb : m.contains b = true)
    (hS : m.contains "START$_" = true) :
    init_queue m [a] = .ok [([a], none)]
    ∧ init_queue m [a, b]
      = .error "TypeError comparison not supported between NoneType operands" := by
  constructor
  · simp [init_queue, pymax_key, pymax_go, start_word_prob_ok ha hS]
  · simp [init_queue, pymax_key, pymax_go, start_word_prob_ok ha hS,
      start_word_prob_ok hb hS, pyGtOpt]

theorem C2_witness :
    Mw.contains "a" = true ∧ Mw.contains "b" = true
    ∧ Mw.contains "START$_" = true
    ∧ init_queue Mw ["a"] = .ok [(["a"], none)]
    ∧ init_queue Mw ["a", "b"]
      = .error "TypeError comparison not supported between NoneType operands" :=
  ⟨by decide, by decide, by decide,
    (C2_seed_queue_not_start_prob Mw "a" "b" (by decide) (by decide) (by decide)).1,
    (C2_seed_queue_not_start_prob Mw "a" "b" (by decide) (by decide) (by decide)).2⟩

/-- Claim C10: when the solver returns a single word, `reconstruct_sent`
never returns it as a one-word sentence: the seed already contains the only
word, the completion branch evaluates `words_left[0]` on an empty list, and
the call fails with `IndexError`, for every beam width. -/
theorem C10_singleton_candidate_fails (m : DS_matrix) (w : String)
    (beam_width fuel : Nat)
    (hw : m.contains w = true) (hS : m.contains "START$_" = true) :
    m.reconstruct_sent [w] beam_width (fuel + 1)
      = .error "IndexError list index out of range" := by
  have hq : init_queue m [w] = .ok [([w], none)] := by
    simp [init_queue, pymax_key, pymax_go, start_word_prob_ok hw hS]
  simp only [DS_matrix.reconstruct_sent, hq]
  rw [if_neg (by simp)]
  simp [beam_loop]

theorem C10_witness :
    Mw.contains "a" = true ∧ Mw.contains "START$_" = true
    ∧ Mw.reconstruct_sent ["a"] 3 1 = .error "IndexError list index out of range" :=
  ⟨by decide, by decide,
    C10_singleton_candidate_fails Mw "a" 3 0 (by decide) (by decide)⟩

theorem pymin_go_spec :
    ∀ (l : List Entry) (best : Entry),
      best.2.isSome = true → (∀ e ∈ l, e.2.isSome = true) →
      ∃ e, pymin_go best l = .ok e ∧ (e = best ∨ e ∈ l)
        ∧ e.2.getD 0 ≤ best.2.getD 0
        ∧ ∀ f ∈ l, e.2.getD 0 ≤ f.2.getD 0 := by
  intro l
  induction l with
  | nil =>
    intro best hb _
    exact ⟨best, rfl, Or.inl rfl, le_refl _, by simp⟩
  | cons y ys ih =>
    intro best hb hl
    obtain ⟨a, ha⟩ := Option.isSome_iff_exists.1 (hl y (List.mem_cons_self y ys))
    obtain ⟨bq, hbq⟩ := Option.isSome_iff_exists.1 hb
    have hcomp : pyLtOpt y.2 best.2 = .ok (decide (a < bq)) := by
      rw [ha, hbq]; rfl
    have hys : ∀ e ∈ ys, e.2.isSome = true :=
      fun e he => hl e (List.mem_cons_of_mem y he)
    by_cases hab : a < bq
    · obtain ⟨e, he, hmem, hle, hall⟩ := ih y (by simp [ha]) hys
      refine ⟨e, ?_, ?_, ?_, ?_⟩
      · simp only [pymin_go, hcomp]
        simpa [hab] using he
      · rcases hmem with h | h
        · exact Or.inr (h ▸ List.mem_cons_self y ys)
        · exact Or.inr (List.mem_cons_of_mem y h)
      · calc e.2.getD 0 ≤ y.2.getD 0 := hle
          _ ≤ best.2.getD 0 := by simp [ha, hbq]; exact le_of_lt hab
      · intro f hf
        rcases List.mem_cons.1 hf with h | h
        · exact h ▸ hle
        · exact hall f h
    · obtain ⟨e, he, hmem, hle, hall⟩ := ih best hb hys
      refine ⟨e, ?_, ?_, hle, ?_⟩
      · simp only [pymin_go, hcomp]
        simpa [hab] using he
      · rcases hmem with h | h
        · exact Or.inl h
        · exact Or.inr (List.mem_cons_of_mem y h)
      · intro f hf
        rcases List.mem_cons.1 hf with h | h
        · subst h
          calc e.2.getD 0 ≤ best.2.getD 0 := hle
            _ ≤ f.2.getD 0 := by simp [ha, hbq]; exact le_of_not_lt hab
        · exact hall f h

theorem pymin_by_snd_spec (l : List Entry) (hne : l ≠ [])
    (hl : ∀ e ∈ l, e.2.isSome = true) :
    ∃ e ∈ l, pymin_by_snd l = .ok e ∧ ∀ f ∈ l, e.2.getD 0 ≤ f.2.getD 0 := by
  cases l with
  | nil => exact absurd rfl hne
  | cons x xs =>
    obtain ⟨e, he, hmem, hle, hall⟩ :=
      pymin_go_spec xs x (hl x (List.mem_cons_self x xs))
        (fun e he => hl e (List.mem_cons_of_mem x he))
    refine ⟨e, ?_, he, ?_⟩
    · rcases hmem with h | h
      · exact h ▸ List.mem_cons_self x xs
      · exact List.mem_cons_of_mem x h
    · intro f hf
      rcases List.mem_cons.1 hf with h | h
      · exact h ▸ hle
      · exact hall f h

/-- Claim C3: when an append has pushed the queue to 10001 entries (the only
way the bound 10000 is ever exceeded, since the pruning runs after every
single append), the pruning block removes exactly one entry — one whose
joint probability is minimal among the first 1000 queue entries, not among
the whole queue — leaving exactly 10000 entries. -/
theorem C3_prune_queue_bound (q : List Entry)
    (hsome : ∀ e ∈ q, e.2.isSome = true)
    (hlen : q.length = 10001) :
    ∃ e ∈ q.take 1000,
      (∀ f ∈ q.take 1000, e.2.getD 0 ≤ f.2.getD 0)
      ∧ prune_queue q = .ok (q.erase e)
      ∧ (q.erase e).length = 10000 := by
  have htne : q.take 1000 ≠ [] := by
    have : (q.take 1000).length = 1000 := by
      rw [List.length_take, hlen]
      omega
    intro hnil
    rw [hnil] at this
    simp at this
  obtain ⟨e, hmem, hmin, hall⟩ :=
    pymin_by_snd_spec (q.take 1000) htne
      (fun f hf => hsome f (List.take_subset 1000 q hf))
  have heq : e ∈ q := List.take_subset 1000 q hmem
  refine ⟨e, hmem, hall, ?_, ?_⟩
  · rw [prune_queue, if_pos (by rw [hlen]; norm_num), hmin]
  · rw [List.length_erase_of_mem heq, hlen]

theorem C3_witness :
    (∀ e ∈ List.replicate 10001 (([] : List String), some (1 : ℚ)),
      e.2.isSome = true)
    ∧ (List.replicate 10001 (([] : List String), some (1 : ℚ))).length = 10001
    ∧ ∃ e ∈ (List.replicate 10001 (([] : List String), some (1 : ℚ))).take 1000,
        (∀ f ∈ (List.replicate 10001 (([] : List String), some (1 : ℚ))).take 1000,
          e.2.getD 0 ≤ f.2.getD 0)
        ∧ prune_queue (List.replicate 10001 (([] : List String), some (1 : ℚ)))
            = .ok ((List.replicate 10001 (([] : List String), some (1 : ℚ))).erase e)
        ∧ ((List.replicate 10001 (([] : List String), some (1 : ℚ))).erase e).length
            = 10000 :=
  ⟨fun e he => by rw [List.eq_of_mem_replicate he]; rfl,
   by rw [List.length_replicate],
   C3_prune_queue_bound _ (fun e he => by rw [List.eq_of_mem_replicate he]; rfl)
     (by rw [List.length_replicate])⟩

theorem np_choice_ok {probs : List ℚ} {d i : Nat}
    (h : np_choice probs d = some (.ok i)) :
    i = d ∧ d < probs.length ∧ 0 < probs.getD d 0 := by
  unfold np_choice at h
  split at h
  · simp at h
  · split at h
    · simp at h
    · split at h
      · rename_i hcond
        simp only [Option.some.injEq, Except.ok.injEq] at h
        exact ⟨h.symm, hcond.1, hcond.2⟩
      · simp at h

theorem redraw_non_start_ne (words : List String) (probs : List ℚ) :
    ∀ (draws : List Nat) (w : String) (ds : List Nat),
      redraw_non_start words probs draws = some (.ok (w, ds)) →
      w ≠ "START$_" := by
  intro draws
  induction draws with
  | nil => intro w ds h; simp [redraw_non_start] at h
  | cons d rest ih =>
    intro w ds h
    simp only [redraw_non_start] at h
    split at h
    · simp at h
    · simp at h
    · split at h
      · exact ih w ds h
      · rename_i hne
        simp only [Option.some.injEq, Except.ok.injEq, Prod.mk.injEq] at h
        exact h.1 ▸ hne

theorem get?_eq_some_getD :
    ∀ (l : List String) (n : Nat), n < l.length →
      l.get? n = some (l.getD n "") := by
  intro l
  induction l with
  | nil => intro n h; simp at h
  | cons x xs ih =>
    intro n h
    cases n with
    | zero => rfl
    | succ k => exact ih k (by simpa using h)

theorem bigram_col_length (m : DS_matrix) (pos : Nat) :
    (bigram_col m pos).length = m.vocab.length := by
  simp [bigram_col]

theorem bigram_col_getD (m : DS_matrix) (pos d : Nat)
    (hd : d < m.vocab.length) :
    (bigram_col m pos).getD d 0 = m.mat d pos := by
  rw [bigram_col, List.getD_eq_getElem?_getD, List.getElem?_map,
    List.getElem?_range hd]
  rfl

theorem gen_next_ne_start (m : DS_matrix)
    (hH : ∀ i j, m.vocab.get? i = some "START$_" → m.mat i j = 0)
    (word : String) (draws : List Nat) (w : String) (ds : List Nat)
    (h : gen_next m word draws = some (.ok (w, ds))) :
    w ≠ "START$_" := by
  unfold gen_next at h
  cases hpos : lookup_pos m.vocab word with
  | none => rw [hpos] at h; simp at h
  | some pos =>
    rw [hpos] at h
    dsimp only at h
    by_cases hz : (bigram_col m pos).sum = 0
    · rw [if_pos hz] at h
      exact redraw_non_start_ne m.vocab _ draws w ds h
    · rw [if_neg hz] at h
      cases draws with
      | nil => simp at h
      | cons d rest =>
        dsimp only at h
        cases hchoice : np_choice (bigram_col m pos) d with
        | none => rw [hchoice] at h; simp at h
        | some r =>
          rw [hchoice] at h
          cases r with
          | error e => simp at h
          | ok i =>
            simp only [Option.some.injEq, Except.ok.injEq, Prod.mk.injEq] at h
            obtain ⟨hw, _⟩ := h
            obtain ⟨hid, hd, hposd⟩ := np_choice_ok hchoice
            rw [bigram_col_length] at hd
            rw [bigram_col_getD m pos d hd] at hposd
            subst hid
            intro hws
            have hget : m.vocab.get? i = some "START$_" := by
              rw [get?_eq_some_getD m.vocab i hd, hw, hws]
            have hzero := hH i pos hget
            rw [hzero] at hposd
            exact lt_irrefl 0 hposd

theorem gen_loop_no_start (m : DS_matrix)
    (hH : ∀ i j, m.vocab.get? i = some "START$_" → m.mat i j = 0) :
    ∀ (fuel : Nat) (word : String) (draws : List Nat)
      (acc s : List String),
      "START$_" ∉ acc →
      gen_loop m fuel word draws acc = some (.ok s) →
      "START$_" ∉ s := by
  intro fuel
  induction fuel with
  | zero => intro word draws acc s hacc h; simp [gen_loop] at h
  | succ n ih =>
    intro word draws acc s hacc h
    simp only [gen_loop] at h
    by_cases hend : word = "END$_"
    · rw [if_pos hend] at h
      simp only [Option.some.injEq, Except.ok.injEq] at h
      exact h ▸ hacc
    · rw [if_neg hend] at h
      cases hnext : gen_next m word draws with
      | none => rw [hnext] at h; simp at h
      | some r =>
        rw [hnext] at h
        cases r with
        | error e => simp at h
        | ok p =>
          obtain ⟨w, ds⟩ := p
          dsimp only at h
          by_cases hwe : w = "END$_"
          · rw [if_pos hwe] at h
            simp only [Option.some.injEq, Except.ok.injEq] at h
            exact h ▸ hacc
          · rw [if_neg hwe] at h
            have hw := gen_next_ne_start m hH word draws w ds hnext
            refine ih w ds (acc ++ [w]) s ?_ h
            intro hmem
            rcases List.mem_append.1 hmem with h1 | h1
            · exact hacc h1
            · exact hw (List.mem_singleton.1 h1).symm


/-- Claim C4, amended: the start-sentinel re-roll exists only in the
unigram-backoff branch; the bigram branch emits whatever it samples.  The
guarantee that a generated sentence never contains the start sentinel
therefore holds for models whose bigram matrix gives the start-sentinel row
zero weight in every column (as a trained model does) — not for every
model. -/
theorem C4_no_start_sentinel_amended (m : DS_matrix) (start_word : String)
    (draws : List Nat) (fuel : Nat) (s : List String)
    (hH : ∀ i j, m.vocab.get? i = some "START$_" → m.mat i j = 0)
    (h : m.generate_bigram_sentence start_word draws fuel = some (.ok s)) :
    "START$_" ∉ s := by
  unfold DS_matrix.generate_bigram_sentence at h
  dsimp only at h
  by_cases hc : m.contains
      (if start_word ≠ "START$_" ∧ start_word ≠ "END$_" then py_lower start_word
       else start_word) = true
  · rw [if_pos hc] at h
    exact gen_loop_no_start m hH fuel _ draws [] s (by simp) h
  · rw [if_neg hc] at h
    simp at h

theorem Mok_start_row_zero :
    ∀ i j, Mok.vocab.get? i = some "START$_" → Mok.mat i j = 0 := by
  intro i j h
  match i with
  | 0 => rfl
  | 1 =>
    injection h with h
    exact absurd h (by decide)
  | 2 =>
    injection h with h
    exact absurd h (by decide)
  | n + 3 => exact Option.noConfusion h

theorem C4_witness :
    (∀ i j, Mok.vocab.get? i = some "START$_" → Mok.mat i j = 0)
    ∧ Mok.generate_bigram_sentence "w" [1] 2 = some (.ok [])
    ∧ "START$_" ∉ ([] : List String) :=
  ⟨Mok_start_row_zero, rfl,
    C4_no_start_sentinel_amended Mok "w" [1] 2 [] Mok_start_row_zero rfl⟩

/-- Claim C4 is false as stated: on a model whose bigram column for `w`
gives the start sentinel probability 1/2, a realizable run of
`generate_bigram_sentence` returns a sentence that contains the start
sentinel — the bigram branch has no re-roll. -/
theorem C4_counterexample :
    Mgen.generate_bigram_sentence "w" [0, 1] 3 = some (.ok ["START$_"])
    ∧ "START$_" ∈ ["START$_"] :=
  ⟨rfl, by simp⟩

theorem map_congr_mem {α β : Type} {l : List α} {f g : α → β}
    (h : ∀ x ∈ l, f x = g x) : l.map f = l.map g := by
  induction l with
  | nil => rfl
  | cons a as ih =>
    rw [List.map_cons, List.map_cons, h a (List.mem_cons_self a as),
      ih (fun x hx => h x (List.mem_cons_of_mem a hx))]

theorem pydistinct_aux_spec :
    ∀ (l seen : List String),
      (pydistinct_aux seen l).Nodup
      ∧ ∀ x ∈ pydistinct_aux seen l, x ∉ seen := by
  intro l
  induction l with
  | nil => intro seen; exact ⟨List.nodup_nil, by simp [pydistinct_aux]⟩
  | cons x xs ih =>
    intro seen
    by_cases hx : x ∈ seen
    · simpa [pydistinct_aux, hx] using ih seen
    · obtain ⟨hnd, hnotin⟩ := ih (x :: seen)
      constructor
      · simp only [pydistinct_aux, if_neg hx]
        rw [List.nodup_cons]
        exact ⟨fun hmem => hnotin x hmem (List.mem_cons_self x seen), hnd⟩
      · intro y hy
        simp only [pydistinct_aux, if_neg hx] at hy
        rcases List.mem_cons.1 hy with h | h
        · exact h ▸ hx
        · intro hseen
          exact hnotin y h (List.mem_cons_of_mem x hseen)

theorem py_set_add_nodup {l : List String} (h : l.Nodup) (x : String) :
    (py_set_add l x).Nodup := by
  unfold py_set_add
  split
  · exact h
  · rename_i hx
    rw [List.nodup_append]
    exact ⟨h, List.nodup_singleton x,
      fun a ha hax => hx ((List.mem_singleton.1 hax) ▸ ha)⟩

theorem reduced_vocab_nodup (m : DS_matrix) (word_set : List String) :
    (reduced_vocab m word_set).Nodup := by
  have h0 : (pydistinct (word_set.filter (fun w => m.contains w))).Nodup :=
    (pydistinct_aux_spec _ []).1
  unfold reduced_vocab
  dsimp only
  split
  · apply py_set_add_nodup
    split
    · exact py_set_add_nodup h0 _
    · exact h0
  · split
    · exact py_set_add_nodup h0 _
    · exact h0

theorem sum_over_positions :
    ∀ (l : List String), l.Nodup → ∀ (f : Nat → ℚ),
      (l.map (fun w => f ((lookup_pos l w).getD 0))).sum
        = ((List.range l.length).map f).sum := by
  intro l
  induction l with
  | nil => intro _ f; rfl
  | cons x xs ih =>
    intro hnd f
    rw [List.nodup_cons] at hnd
    obtain ⟨hxmem, hxs⟩ := hnd
    have hx : lookup_pos (x :: xs) x = some 0 := by simp [lookup_pos]
    have hcong : xs.map (fun w => f ((lookup_pos (x :: xs) w).getD 0))
        = xs.map (fun w => (fun n => f (n + 1)) ((lookup_pos xs w).getD 0)) := by
      apply map_congr_mem
      intro w hw
      have hne : ¬ x = w := fun he => hxmem (he ▸ hw)
      obtain ⟨k, hk⟩ :=
        Option.isSome_iff_exists.1 (lookup_pos_isSome_of_mem hw)
      simp [lookup_pos, hne, hk]
    rw [List.map_cons, List.sum_cons, hx, hcong, ih hxs (fun n => f (n + 1)),
      List.length_cons, List.range_succ_eq_map, List.map_cons, List.sum_cons,
      List.map_map]
    rfl

theorem sum_map_mul_right_q (l : List Nat) (f : Nat → ℚ) (r : ℚ) :
    (l.map (fun i => f i * r)).sum = (l.map f).sum * r := by
  induction l with
  | nil => simp
  | cons a as ih => simp [ih, add_mul]

theorem base_mat_nonneg (m : DS_matrix) (ws : List String)
    (hpos : ∀ i j, 0 ≤ m.mat i j) : ∀ i j, 0 ≤ base_mat m ws i j := by
  intro i j
  unfold base_mat
  split
  · exact hpos _ _
  · exact le_refl 0

theorem normalize_cols_sum_one (mat : Nat → Nat → ℚ) (nrows c : Nat)
    (hpos : ∀ i, 0 ≤ mat i c)
    (hex : ∃ i, i < nrows ∧ normalize_cols mat nrows i c ≠ 0) :
    ((List.range nrows).map (fun i => normalize_cols mat nrows i c)).sum
      = 1 := by
  by_cases hcz : col_is_zero mat nrows c = true
  · exfalso
    obtain ⟨i0, hi0, hne⟩ := hex
    apply hne
    have hz : mat i0 c = 0 := by
      have hall := List.all_eq_true.1 hcz
      have := hall i0 (List.mem_range.2 hi0)
      simpa using this
    simp [normalize_cols, hcz, hz]
  · have hcz' : col_is_zero mat nrows c = false := by
      revert hcz
      cases col_is_zero mat nrows c <;> simp
    have hexb : ∃ i, i < nrows ∧ mat i c ≠ 0 := by
      by_contra hall
      push_neg at hall
      apply hcz
      unfold col_is_zero
      rw [List.all_eq_true]
      intro i hi
      have := hall i (List.mem_range.1 hi)
      simp [this]
    obtain ⟨i1, hi1, hne1⟩ := hexb
    have h01 : 0 < mat i1 c := lt_of_le_of_ne (hpos i1) (Ne.symm hne1)
    have hmem1 : mat i1 c ∈ (List.range nrows).map (fun i => mat i c) :=
      List.mem_map_of_mem _ (List.mem_range.2 hi1)
    have hle : mat i1 c ≤ col_sum mat nrows c := by
      apply List.single_le_sum ?_ _ hmem1
      intro x hx
      obtain ⟨i, _, rfl⟩ := List.mem_map.1 hx
      exact hpos i
    have hS : 0 < col_sum mat nrows c := lt_of_lt_of_le h01 hle
    have hrw : ((List.range nrows).map
          (fun i => normalize_cols mat nrows i c)).sum
        = ((List.range nrows).map
          (fun i => mat i c * (col_sum mat nrows c)⁻¹)).sum := by
      congr 1
      apply map_congr_mem
      intro i _
      simp [normalize_cols, hcz', div_eq_mul_inv]
    rw [hrw, sum_map_mul_right_q]
    exact mul_inv_cancel₀ (ne_of_gt hS)

/-- Claim C5: the matrix built by `less_words_matrix(word_set,
normalize=True)` is column-stochastic: for every retained word `w2` whose
column holds a nonzero entry, the bigram probabilities of all retained
words given `w2` sum to exactly 1 (exact rational arithmetic; the
hypotheses are the data-model invariants — nonnegative entries and a
reduced vocabulary that fits the context dimension). -/
theorem C5_less_words_matrix_column_stochastic (m : DS_matrix)
    (word_set : List String) (R : DS_matrix)
    (hR : R = m.less_words_matrix word_set true)
    (hpos : ∀ i j, 0 ≤ m.mat i j)
    (hdim : R.vocab.length ≤ m.ncols)
    (w2 : String) (hw2 : w2 ∈ R.vocab)
    (hnz : ∃ i, i < R.vocab.length ∧ R.mat i (R.rowOf w2) ≠ 0) :
    (R.vocab.map
      (fun w1 => (R.get_bigram_prob w1 w2).toOption.getD 0)).sum = 1 := by
  subst hR
  have hnd := reduced_vocab_nodup m word_set
  have hc2 : (m.less_words_matrix word_set true).contains w2 = true :=
    lookup_pos_isSome_of_mem hw2
  have hgoal : (m.less_words_matrix word_set true).vocab.map
      (fun w1 => ((m.less_words_matrix word_set true).get_bigram_prob w1 w2).toOption.getD 0)
      = (reduced_vocab m word_set).map
        (fun w1 => (fun i => normalize_cols (base_mat m (reduced_vocab m word_set))
            (reduced_vocab m word_set).length i
            ((lookup_pos (reduced_vocab m word_set) w2).getD 0))
          ((lookup_pos (reduced_vocab m word_set) w1).getD 0)) := by
    apply map_congr_mem
    intro w1 hw1
    have hc1 : (m.less_words_matrix word_set true).contains w1 = true :=
      lookup_pos_isSome_of_mem hw1
    rw [get_bigram_prob_of_contains _ hc1 hc2]
    rfl
  rw [hgoal, sum_over_positions (reduced_vocab m word_set) hnd
    (fun i => normalize_cols (base_mat m (reduced_vocab m word_set))
      (reduced_vocab m word_set).length i
      ((lookup_pos (reduced_vocab m word_set) w2).getD 0))]
  exact normalize_cols_sum_one _ _ _
    (fun i => base_mat_nonneg m _ hpos i _) hnz

theorem Mw_mat_nonneg : ∀ i j, 0 ≤ Mw.mat i j := by
  intro i j
  simp only [Mw]
  split
  · norm_num
  · split
    · norm_num
    · split
      · norm_num
      · split
        · norm_num
        · norm_num

theorem C5_witness :
    (∀ i j, 0 ≤ Mw.mat i j)
    ∧ (Mw.less_words_matrix ["a"] true).vocab.length ≤ Mw.ncols
    ∧ "a" ∈ (Mw.less_words_matrix ["a"] true).vocab
    ∧ (∃ i, i < (Mw.less_words_matrix ["a"] true).vocab.length
        ∧ (Mw.less_words_matrix ["a"] true).mat i
            ((Mw.less_words_matrix ["a"] true).rowOf "a") ≠ 0)
    ∧ ((Mw.less_words_matrix ["a"] true).vocab.map
        (fun w1 => ((Mw.less_words_matrix ["a"] true).get_bigram_prob w1 "a").toOption.getD 0)).sum
      = 1 :=
  ⟨Mw_mat_nonneg, by decide, by decide, ⟨0, by decide, by decide⟩,
    C5_less_words_matrix_column_stochastic Mw ["a"] _ rfl Mw_mat_nonneg
      (by decide) "a" (by decide) ⟨0, by decide, by decide⟩⟩
